import Mathlib

/-!
# Verification of the simple-rpc binary codec (`simple_rpc/io.py`)

A shallow embedding of the structural binary codec: the basic-value
transcoder (`_read_basic` / `_write_basic`), the delimited scanner
(`until` / `_read_bytes_until`), the escaped-length byte-string decoder
(`read_byte_string`), and the recursive composite transcoder
(`read` / `write`).

Streams are byte lists (`List Nat`, each entry one byte).  Reading is
modelled as a function from a stream to an optional value paired with the
unconsumed tail; writing returns the produced bytes, with `Except` used to
keep the bytes already written when an error is raised mid-write (Python
raises with the stream partially written).  A `none` / `.error` result
models the Python call not returning a value at that point; the operational
loops whose non-termination matters are additionally modelled fuel-explicitly.
-/

namespace SimpleRpc

/-- Endianness configuration (struct format prefix): little or big.
Python's native mode resolves to one of these two at runtime. -/
inductive Endian where
  | little
  | big
deriving DecidableEq

/-- Little-endian base-256 encoding of a natural number in exactly `w` bytes
(the byte order `struct.pack` uses for the unsigned formats). -/
def natToBytesLE : Nat → Nat → List Nat
  | 0, _ => []
  | w + 1, v => v % 256 :: natToBytesLE w (v / 256)

/-- Little-endian base-256 decoding of a byte list. -/
def natFromBytesLE : List Nat → Nat
  | [] => 0
  | b :: bs => b + 256 * natFromBytesLE bs

/-- Fixed-width base-256 encoding in the given endianness (big endian is the
reversed little-endian byte sequence). -/
def natToBytesE (e : Endian) (w v : Nat) : List Nat :=
  match e with
  | .little => natToBytesLE w v
  | .big => (natToBytesLE w v).reverse

/-- Base-256 decoding in the given endianness; also models Python's
`int.from_bytes`, which accepts byte strings of any length. -/
def natFromBytesE (e : Endian) (bs : List Nat) : Nat :=
  match e with
  | .little => natFromBytesLE bs
  | .big => natFromBytesLE bs.reverse

theorem natToBytesLE_length (w v : Nat) : (natToBytesLE w v).length = w := by
  induction w generalizing v with
  | zero => rfl
  | succ w ih => simp [natToBytesLE, ih]

theorem natToBytesE_length (e : Endian) (w v : Nat) :
    (natToBytesE e w v).length = w := by
  cases e <;> simp [natToBytesE, natToBytesLE_length]

theorem natFromBytesLE_natToBytesLE {w v : Nat} (h : v < 256 ^ w) :
    natFromBytesLE (natToBytesLE w v) = v := by
  induction w generalizing v with
  | zero =>
    simp [natToBytesLE, natFromBytesLE]
    omega
  | succ w ih =>
    have hv : v / 256 < 256 ^ w := by
      rw [Nat.div_lt_iff_lt_mul (by norm_num)]
      calc v < 256 ^ (w + 1) := h
        _ = 256 ^ w * 256 := by ring
    simp [natToBytesLE, natFromBytesLE, ih hv]
    omega

theorem natFromBytesE_natToBytesE (e : Endian) {w v : Nat} (h : v < 256 ^ w) :
    natFromBytesE e (natToBytesE e w v) = v := by
  cases e <;>
    simp [natToBytesE, natFromBytesE, natFromBytesLE_natToBytesLE h]

/-- Two's-complement encoding used by `struct.pack` for the signed integer
formats: the value is reduced modulo `256 ^ w` and written as `w` bytes. -/
def intToBytesE (e : Endian) (w : Nat) (n : Int) : List Nat :=
  natToBytesE e w (n % (256 ^ w : Int)).toNat

/-- Two's-complement decoding used by `struct.unpack` for the signed integer
formats. -/
def intFromBytesE (e : Endian) (w : Nat) (bs : List Nat) : Int :=
  let u := natFromBytesE e bs
  if u < 256 ^ w / 2 then (u : Int) else (u : Int) - 256 ^ w

/-- Scalar type tags of the basic-value transcoder: the `struct` format
characters used by `_read_basic` / `_write_basic`.  `uint w` / `sint w` stand
for the unsigned / signed integer formats of byte width `w`
(`B H I L Q` / `b h i l q`), `bool` for `?`, `char` for `c`, and `str` for the
null-terminated byte-string tag `s`.  (The IEEE floating-point formats `f`/`d`
are outside this embedding.) -/
inductive ScalarTag where
  | uint (w : Nat)
  | sint (w : Nat)
  | bool
  | char
  | str
deriving DecidableEq

/-- `struct.calcsize` for the fixed-width tags (the byte width read/written by
the basic transcoder; the `str` tag never reaches `calcsize` in
`_read_basic`). -/
def calcsize : ScalarTag → Nat
  | .uint w => w
  | .sint w => w
  | .bool => 1
  | .char => 1
  | .str => 1

/-- Type descriptors driving the composite transcoder `read` / `write`:
a scalar tag, a Python tuple of sub-descriptors, a Python list of
sub-descriptors (the repeat unit), or a numpy array type object
(`itemsize` = `obj_type.itemsize`, `shape` = the contents of the descriptor
array, whose first entry — when present — is the expected element count
checked by `_write_basic`). -/
inductive Desc where
  | scalar (t : ScalarTag)
  | tup (ds : List Desc)
  | lst (ds : List Desc)
  | arr (itemsize : Nat) (shape : List Nat)

/-- Decoded values: numbers, booleans, byte strings, tuples, lists, and
numpy arrays (`count` = `obj.size`, `bs` = `obj.tobytes()`). -/
inductive Value where
  | vint (n : Int)
  | vbool (b : Bool)
  | vbytes (bs : List Nat)
  | vtuple (vs : List Value)
  | vlist (vs : List Value)
  | varray (count : Nat) (bs : List Nat)

/-- Scan of `_read_bytes_until(stream, b'\0')` on the part of the stream where
it is defined: split at the first NUL byte, consuming the delimiter.  `none`
models the call never producing a value (the delimiter is absent; see the
fuel-explicit `untilNulFuel` for what the loop does in that case). -/
def splitAtNul : List Nat → Option (List Nat × List Nat)
  | [] => none
  | b :: r =>
      if b = 0 then some ([], r)
      else (splitAtNul r).map fun p => (b :: p.1, p.2)

/-- `_read_basic(stream, endianness, basic_type)`: the `s` tag delegates to the
delimited scan; a fixed-width tag reads exactly `calcsize` bytes and unpacks
them (`struct.unpack` raises when the stream yields fewer — modelled `none`). -/
def readBasic (e : Endian) (t : ScalarTag) (s : List Nat) : Option (Value × List Nat) :=
  match t with
  | .str => (splitAtNul s).map fun p => (.vbytes p.1, p.2)
  | .uint w =>
      if w ≤ s.length then some (.vint (natFromBytesE e (s.take w)), s.drop w) else none
  | .sint w =>
      if w ≤ s.length then some (.vint (intFromBytesE e w (s.take w)), s.drop w) else none
  | .bool =>
      match s with
      | [] => none
      | b :: r => some (.vbool (b != 0), r)
  | .char =>
      match s with
      | [] => none
      | b :: r => some (.vbytes [b], r)

/-- `_write_basic(stream, endianness, basic_type, value)` for scalar tags: the
`s` tag appends a NUL terminator; a fixed-width tag coerces the value and
packs it (`struct.pack` raises on out-of-range values before anything is
written — modelled `none`). -/
def writeBasic (e : Endian) (t : ScalarTag) (v : Value) : Option (List Nat) :=
  match t, v with
  | .str, .vbytes bs => some (bs ++ [0])
  | .uint w, .vint n =>
      if 0 ≤ n ∧ n < ((256 ^ w : Nat) : Int) then some (natToBytesE e w n.toNat) else none
  | .sint w, .vint n =>
      if -(((256 ^ w / 2 : Nat) : Int)) ≤ n ∧ n < ((256 ^ w / 2 : Nat) : Int)
      then some (intToBytesE e w n) else none
  | .bool, .vbool b => some [if b then 1 else 0]
  | .char, .vbytes bs => if bs.length = 1 then some bs else none
  | _, _ => none

/-- The numpy-array branch of `_write_basic`: when the descriptor array is
non-empty its first entry must equal `value.size`, otherwise the assertion
raises (before `value.tobytes()` is written). -/
def writeBasicArray (shape : List Nat) (count : Nat) (bs : List Nat) :
    Except (List Nat) (List Nat) :=
  match shape with
  | [] => .ok bs
  | c :: _ => if c = count then .ok bs else .error []

/-- `zip(obj_type * len(obj), obj)`: the descriptor sequence replicated
`len(obj)` times, paired positionally with the value sequence (`zip`
truncates at the shorter list). -/
def cyclePairs (ds : List Desc) (vs : List Value) : List (Desc × Value) :=
  (List.replicate vs.length ds).flatten.zip vs

theorem sum_zip_snd_lt (l : List Desc) (vs : List Value) :
    ((l.zip vs).map fun p => 1 + sizeOf p.2).sum < sizeOf vs := by
  induction vs generalizing l with
  | nil => simp
  | cons v vs ih =>
    cases l with
    | nil => simp
    | cons d l =>
      simp [List.zip_cons_cons]
      have := ih l
      simp at this
      omega

theorem cyclePairs_sum_lt (ds : List Desc) (vs : List Value) :
    ((cyclePairs ds vs).map fun p => 1 + sizeOf p.2).sum < sizeOf vs :=
  sum_zip_snd_lt _ vs

mutual

/-- `write(stream, endianness, size_t, obj_type, obj)`: a list descriptor
first writes `len(obj) // len(obj_type)` via the size tag (floor division —
`ZeroDivisionError` on an empty repeat unit), an array descriptor writes
`obj.size` via the size tag and then the raw buffer through the array branch
of `_write_basic`, list and tuple descriptors then encode
`zip(obj_type * len(obj), obj)` element-wise, and a scalar delegates to
`_write_basic`.  `.ok out` is the byte string appended to the stream;
`.error w` models an exception raised after the bytes `w` were already
written.  (`st` is the byte width of the unsigned `size_t` tag; values are
modelled in the canonical Python shape for each descriptor.) -/
def write (e : Endian) (st : Nat) : Desc → Value → Except (List Nat) (List Nat)
  | .scalar t, v =>
      match writeBasic e t v with
      | none => .error []
      | some out => .ok out
  | .arr _ shape, .varray count bs =>
      match writeBasic e (.uint st) (.vint count) with
      | none => .error []
      | some cb =>
          match writeBasicArray shape count bs with
          | .error _ => .error cb
          | .ok body => .ok (cb ++ body)
  | .tup ds, .vtuple vs => writeSeq e st (cyclePairs ds vs)
  | .lst ds, .vlist vs =>
      if ds.length = 0 then .error []
      else
        match writeBasic e (.uint st) (.vint ((vs.length / ds.length : Nat) : Int)) with
        | none => .error []
        | some cb =>
            match writeSeq e st (cyclePairs ds vs) with
            | .error body => .error (cb ++ body)
            | .ok body => .ok (cb ++ body)
  | _, _ => .error []
termination_by _ v => sizeOf v
decreasing_by
  all_goals
    have := cyclePairs_sum_lt ds vs
    simp at this ⊢
    omega

/-- The element-wise loop of `write` over descriptor/value pairs, concatenating
the bytes each recursive call appends to the stream. -/
def writeSeq (e : Endian) (st : Nat) : List (Desc × Value) → Except (List Nat) (List Nat)
  | [] => .ok []
  | (d, v) :: ps =>
      match write e st d v with
      | .error w1 => .error w1
      | .ok w1 =>
          match writeSeq e st ps with
          | .error w2 => .error (w1 ++ w2)
          | .ok w2 => .ok (w1 ++ w2)
termination_by ps => (ps.map fun p => 1 + sizeOf p.2).sum
decreasing_by
  all_goals simp
  all_goals omega

end

mutual

/-- `read(stream, endianness, size_t, obj_type)`: an array descriptor decodes
a count via the size tag, reads `count * itemsize` bytes (the stream yields
what it has; `np.frombuffer` raises when that is not a multiple of
`itemsize`) and reinterprets them; a list descriptor decodes a count and then
performs that many full cycles through its sub-descriptors, flattened; a
tuple descriptor decodes one value per sub-descriptor; a scalar delegates to
`_read_basic`. -/
def read (e : Endian) (st : Nat) : Desc → List Nat → Option (Value × List Nat)
  | .scalar t, s => readBasic e t s
  | .arr itemsize _, s =>
      match readBasic e (.uint st) s with
      | some (.vint n, s1) =>
          let bytes := s1.take (n.toNat * itemsize)
          if itemsize ≠ 0 ∧ bytes.length % itemsize = 0
          then some (.varray (bytes.length / itemsize) bytes, s1.drop (n.toNat * itemsize))
          else none
      | _ => none
  | .lst ds, s =>
      match readBasic e (.uint st) s with
      | some (.vint n, s1) =>
          match readCycles e st n.toNat ds s1 with
          | some (vs, s2) => some (.vlist vs, s2)
          | none => none
      | _ => none
  | .tup ds, s =>
      match readSeq e st ds s with
      | some (vs, s2) => some (.vtuple vs, s2)
      | none => none
termination_by d _ => (sizeOf d, 0)

/-- One pass of `read` over a descriptor sequence, threading the stream. -/
def readSeq (e : Endian) (st : Nat) : List Desc → List Nat → Option (List Value × List Nat)
  | [], s => some ([], s)
  | d :: ds, s =>
      match read e st d s with
      | some (v, s1) =>
          match readSeq e st ds s1 with
          | some (vs, s2) => some (v :: vs, s2)
          | none => none
      | none => none
termination_by ds _ => (sizeOf ds, 0)

/-- The `for _ in range(length): for item in obj_type` loop of `read` on a
list descriptor: `c` full cycles through the sub-descriptors, flattened in
cycle order. -/
def readCycles (e : Endian) (st : Nat) : Nat → List Desc → List Nat → Option (List Value × List Nat)
  | 0, _, s => some ([], s)
  | c + 1, ds, s =>
      match readSeq e st ds s with
      | some (vs, s1) =>
          match readCycles e st c ds s1 with
          | some (ws, s2) => some (vs ++ ws, s2)
          | none => none
      | none => none
termination_by c ds _ => (sizeOf ds, c + 1)

end

/-- Decimal ASCII representation of a natural number: the bytes of
`str(int_value).encode('utf-8')`. -/
def decimalDigits (n : Nat) : List Nat :=
  (Nat.toDigits 10 n).map Char.toNat

/-- `read_byte_string(stream, endianness, size_bytes)` in escaped mode
(`size_bytes = sb` set): scan byte by byte; NUL terminates; the escape byte
`#` (0x23 = 35) reads `sb` further bytes as an unsigned integer
(`int.from_bytes`, which accepts fewer bytes when the stream is short),
appends its decimal text and then one recursive decode of the remainder, and
stops.  An exhausted stream never produces a value (`none`): the loop keeps
reading empty byte strings (see `readByteStringFuel`). -/
def read_byte_string (e : Endian) (sb : Nat) : List Nat → Option (List Nat × List Nat)
  | [] => none
  | c :: r =>
      if c = 0 then some ([], r)
      else if c = 35 then
        match read_byte_string e sb (r.drop sb) with
        | some (tail, r2) => some (decimalDigits (natFromBytesE e (r.take sb)) ++ tail, r2)
        | none => none
      else
        match read_byte_string e sb r with
        | some (tail, r2) => some (c :: tail, r2)
        | none => none
termination_by s => s.length
decreasing_by
  all_goals simp
  all_goals omega

/-- One `stream.read(1)`: at end of stream Python returns the empty byte
string and the stream stays empty. -/
def read1 (s : List Nat) : List Nat × List Nat :=
  match s with
  | [] => ([], [])
  | b :: r => ([b], r)

/-- The loop of `until(lambda x: x == b'\0', stream.read, 1)` driving
`_read_bytes_until`, made fuel-explicit: each step reads one byte chunk and
stops only when the chunk equals the delimiter; `none` means the loop has not
produced a value within `fuel` iterations. -/
def untilNulFuel : Nat → List Nat → List Nat → Option (List Nat × List Nat)
  | 0, _, _ => none
  | fuel + 1, acc, s =>
      let (chunk, s1) := read1 s
      if chunk = [0] then some (acc, s1)
      else untilNulFuel fuel (acc ++ chunk) s1

/-- The escaped-mode `read_byte_string` loop made fuel-explicit, including the
end-of-stream behaviour: `stream.read(1)` on an exhausted stream returns the
empty byte string, which is neither the NUL terminator nor the escape byte,
so the loop iterates again on the same exhausted stream. -/
def readByteStringFuel (e : Endian) (sb : Nat) : Nat → List Nat → Option (List Nat × List Nat)
  | 0, _ => none
  | fuel + 1, s =>
      match s with
      | [] => readByteStringFuel e sb fuel []
      | c :: r =>
          if c = 0 then some ([], r)
          else if c = 35 then
            match readByteStringFuel e sb fuel (r.drop sb) with
            | some (tail, r2) =>
                some (decimalDigits (natFromBytesE e (r.take sb)) ++ tail, r2)
            | none => none
          else
            match readByteStringFuel e sb fuel r with
            | some (tail, r2) => some (c :: tail, r2)
            | none => none

/-- A value conforms to a descriptor (relative to the size-tag byte width
`st`): scalars carry an in-range value of the tag's semantic type (byte
strings are NUL-free — the format is NUL-terminated), tuples pair
sub-descriptors with values positionally, a list value is some number `C` of
full cycles through a non-empty repeat unit with `C` representable in the
size tag, and an array value has a buffer of `count` items of `itemsize`
bytes, matching the declared element count when the descriptor declares
one. -/
inductive Conforms (st : Nat) : Desc → Value → Prop where
  | uintC {w : Nat} {n : Int} (h0 : 0 ≤ n) (h1 : n < ((256 ^ w : Nat) : Int)) :
      Conforms st (.scalar (.uint w)) (.vint n)
  | sintC {w : Nat} {n : Int} (h0 : -(((256 ^ w / 2 : Nat) : Int)) ≤ n)
      (h1 : n < ((256 ^ w / 2 : Nat) : Int)) :
      Conforms st (.scalar (.sint w)) (.vint n)
  | boolC (b : Bool) : Conforms st (.scalar .bool) (.vbool b)
  | charC {b : Nat} (h : b < 256) : Conforms st (.scalar .char) (.vbytes [b])
  | strC {bs : List Nat} (hb : ∀ b ∈ bs, b < 256) (h : 0 ∉ bs) :
      Conforms st (.scalar .str) (.vbytes bs)
  | tupC {ds : List Desc} {vs : List Value}
      (h : List.Forall₂ (Conforms st) ds vs) :
      Conforms st (.tup ds) (.vtuple vs)
  | lstC {ds : List Desc} {vs : List Value} (C : Nat) (hne : ds ≠ [])
      (hC : C < 256 ^ st)
      (h : List.Forall₂ (Conforms st) (List.replicate C ds).flatten vs) :
      Conforms st (.lst ds) (.vlist vs)
  | arrC {itemsize : Nat} {shape : List Nat} {count : Nat} {bs : List Nat}
      (hi : 0 < itemsize) (hlen : bs.length = count * itemsize)
      (hC : count < 256 ^ st) (hb : ∀ b ∈ bs, b < 256)
      (hshape : shape = [] ∨ shape.head? = some count) :
      Conforms st (.arr itemsize shape) (.varray count bs)

theorem intFromBytesE_intToBytesE (e : Endian) {w : Nat} {n : Int}
    (h0 : -(((256 ^ w / 2 : Nat) : Int)) ≤ n) (h1 : n < ((256 ^ w / 2 : Nat) : Int)) :
    intFromBytesE e w (intToBytesE e w n) = n := by
  have hMpos : (0 : Int) < (256 : Int) ^ w := by positivity
  have hcast : ((256 : Int)) ^ w = ((256 ^ w : Nat) : Int) := by push_cast; ring
  have hnonneg : 0 ≤ n % ((256 : Int) ^ w) := Int.emod_nonneg n hMpos.ne.symm
  have hlt : n % ((256 : Int) ^ w) < (256 : Int) ^ w := Int.emod_lt_of_pos n hMpos
  have huInt : (((n % ((256 : Int) ^ w)).toNat : Nat) : Int) = n % ((256 : Int) ^ w) :=
    Int.toNat_of_nonneg hnonneg
  have hult : (n % ((256 : Int) ^ w)).toNat < 256 ^ w := by omega
  have hkey : ((((n % ((256 : Int) ^ w)).toNat : Nat) : Int) = n)
      ∨ ((((n % ((256 : Int) ^ w)).toNat : Nat) : Int) = n + ((256 ^ w : Nat) : Int)) := by
    rcases le_or_lt 0 n with hn | hn
    · left
      rw [huInt]
      rw [Int.emod_eq_of_lt hn (by omega)]
    · right
      have e1 : n % ((256 : Int) ^ w) = (n + (256 : Int) ^ w) % ((256 : Int) ^ w) := by
        rw [show n + (256 : Int) ^ w = n + (256 : Int) ^ w * 1 by ring,
          Int.add_mul_emod_self_left]
      have e2 : (n + (256 : Int) ^ w) % ((256 : Int) ^ w) = n + (256 : Int) ^ w :=
        Int.emod_eq_of_lt (by omega) (by omega)
      rw [huInt, e1, e2, hcast]
  rw [intToBytesE, intFromBytesE]
  simp only [natFromBytesE_natToBytesE e hult]
  split <;> omega

theorem splitAtNul_append {bs : List Nat} (h : 0 ∉ bs) (rest : List Nat) :
    splitAtNul (bs ++ 0 :: rest) = some (bs, rest) := by
  induction bs with
  | nil => simp [splitAtNul]
  | cons b tl ih =>
    have hb : b ≠ 0 := fun hb => h (by simp [hb])
    have htl : 0 ∉ tl := fun hm => h (by simp [hm])
    simp [splitAtNul, hb, ih htl]

/-- Round-trip at the basic-value transcoder: a conforming scalar value is
written by `_write_basic` and read back verbatim by `_read_basic`, consuming
exactly the written bytes. -/
theorem scalar_roundtrip (e : Endian) {st : Nat} {t : ScalarTag} {v : Value}
    (h : Conforms st (.scalar t) v) :
    ∃ out, writeBasic e t v = some out ∧
      ∀ rest, readBasic e t (out ++ rest) = some (v, rest) := by
  cases h with
  | uintC h0 h1 =>
    rename_i w n
    refine ⟨natToBytesE e w n.toNat,
      by simp only [writeBasic]; rw [if_pos ⟨h0, h1⟩], fun rest => ?_⟩
    have hlen : (natToBytesE e w n.toNat).length = w := natToBytesE_length e w n.toNat
    have htoNat : n.toNat < 256 ^ w := by
      generalize hX : (256 : Nat) ^ w = X at h1 ⊢
      omega
    rw [readBasic]
    rw [if_pos (by simp [hlen]), List.take_left' hlen, List.drop_left' hlen,
      natFromBytesE_natToBytesE e htoNat, Int.toNat_of_nonneg h0]
  | sintC h0 h1 =>
    rename_i w n
    refine ⟨intToBytesE e w n,
      by simp only [writeBasic]; rw [if_pos ⟨h0, h1⟩], fun rest => ?_⟩
    have hlen : (intToBytesE e w n).length = w := natToBytesE_length e w _
    rw [readBasic]
    rw [if_pos (by simp [hlen]), List.take_left' hlen, List.drop_left' hlen,
      intFromBytesE_intToBytesE e h0 h1]
  | boolC b =>
    refine ⟨[if b then 1 else 0], by simp [writeBasic], fun rest => ?_⟩
    cases b <;> simp [readBasic]
  | charC hb =>
    rename_i b
    exact ⟨[b], by simp [writeBasic], fun rest => by simp [readBasic]⟩
  | strC hb h0 =>
    rename_i bs
    refine ⟨bs ++ [0], by simp [writeBasic], fun rest => ?_⟩
    rw [readBasic]
    simp [splitAtNul_append h0]

theorem zip_eq_zip_take {α β : Type} (l : List α) (vs : List β) :
    l.zip vs = (l.take vs.length).zip vs := by
  induction vs generalizing l with
  | nil => simp
  | cons v vs ih =>
    cases l with
    | nil => simp
    | cons a l => simp [List.zip_cons_cons, ih l]

theorem length_flatten_replicate {α : Type} (C : Nat) (ds : List α) :
    (List.replicate C ds).flatten.length = C * ds.length := by
  induction C with
  | zero => simp
  | succ c ih => simp [List.replicate_succ, ih]; ring

theorem flatten_replicate_take {α : Type} {C C' : Nat} (ds : List α) (h : C ≤ C') :
    (List.replicate C' ds).flatten.take (C * ds.length) = (List.replicate C ds).flatten := by
  have hsplit : List.replicate C' ds = List.replicate C ds ++ List.replicate (C' - C) ds := by
    rw [← List.replicate_add]
    congr 1
    omega
  rw [hsplit, List.flatten_append,
    List.take_left' (length_flatten_replicate C ds)]

/-- With a value sequence whose length is an exact multiple of the repeat
unit, `zip(obj_type * len(obj), obj)` pairs each value with the descriptor
cycle repeated just enough times. -/
theorem cyclePairs_eq_zip_flatten {ds : List Desc} {vs : List Value} {C : Nat}
    (hlen : vs.length = C * ds.length) :
    cyclePairs ds vs = ((List.replicate C ds).flatten).zip vs := by
  rcases Nat.eq_zero_or_pos ds.length with hd | hd
  · rw [hd, Nat.mul_zero] at hlen
    have hvs : vs = [] := List.length_eq_zero.mp hlen
    subst hvs
    simp [cyclePairs]
  · rw [cyclePairs, zip_eq_zip_take _ vs, hlen,
      flatten_replicate_take ds (by nlinarith)]

theorem cyclePairs_eq_zip_self {ds : List Desc} {vs : List Value}
    (hlen : vs.length = ds.length) :
    cyclePairs ds vs = ds.zip vs := by
  have h1 : vs.length = 1 * ds.length := by omega
  rw [cyclePairs_eq_zip_flatten h1]
  simp

theorem readSeq_append (e : Endian) (st : Nat) (l1 l2 : List Desc) (s : List Nat) :
    readSeq e st (l1 ++ l2) s =
      match readSeq e st l1 s with
      | some (vs, s1) =>
          match readSeq e st l2 s1 with
          | some (ws, s2) => some (vs ++ ws, s2)
          | none => none
      | none => none := by
  induction l1 generalizing s with
  | nil =>
    simp only [List.nil_append, readSeq]
    cases h2 : readSeq e st l2 s with
    | none => rfl
    | some p =>
      obtain ⟨ws, s2⟩ := p
      simp
  | cons d l1 ih =>
    cases hr : read e st d s with
    | none => simp [readSeq, hr]
    | some p =>
      obtain ⟨v, s1⟩ := p
      simp only [List.cons_append, readSeq, hr, ih s1]
      cases h1 : readSeq e st l1 s1 with
      | none => rfl
      | some q =>
        obtain ⟨vs, s2⟩ := q
        cases h2 : readSeq e st l2 s2 with
        | none => simp [h2]
        | some r =>
          obtain ⟨ws, s3⟩ := r
          simp [h2]

/-- The nested list-comprehension loop of `read` on a list descriptor equals
one pass of `read` over the repeat unit replicated `C` times: `C` full cycles
through the sub-descriptors, flattened in cycle order. -/
theorem readCycles_eq_readSeq_flatten (e : Endian) (st : Nat) (C : Nat) (ds : List Desc)
    (s : List Nat) :
    readCycles e st C ds s = readSeq e st (List.replicate C ds).flatten s := by
  induction C generalizing s with
  | zero => simp [readCycles, readSeq]
  | succ c ih =>
    rw [List.replicate_succ, List.flatten_cons, readSeq_append]
    cases h1 : readSeq e st ds s with
    | none => simp [readCycles, h1]
    | some p =>
      obtain ⟨vs, s1⟩ := p
      simp only [readCycles, h1, ih s1]

theorem readSeq_length {e : Endian} {st : Nat} :
    ∀ {l : List Desc} {s vs : _} {s2 : List Nat},
      readSeq e st l s = some (vs, s2) → vs.length = l.length := by
  intro l
  induction l with
  | nil =>
    intro s vs s2 h
    simp [readSeq] at h
    simp [h.1.symm]
  | cons d tl ih =>
    intro s vs s2 h
    cases hr : read e st d s with
    | none => simp [readSeq, hr] at h
    | some p =>
      obtain ⟨v, s1⟩ := p
      simp only [readSeq, hr] at h
      cases h1 : readSeq e st tl s1 with
      | none => simp [h1] at h
      | some q =>
        obtain ⟨ws, s3⟩ := q
        simp only [h1, Option.some.injEq, Prod.mk.injEq] at h
        rw [← h.1]
        simp [ih h1]

/-- Round-trip of one `write` / `read` pass over paired descriptors and
conforming values, threading the stream. -/
theorem seq_roundtrip (e : Endian) {st : Nat} {l : List Desc} {vs : List Value}
    (hf : List.Forall₂ (Conforms st) l vs)
    (ih : ∀ d ∈ l, ∀ v, Conforms st d v →
      ∃ out, write e st d v = .ok out ∧
        ∀ rest, read e st d (out ++ rest) = some (v, rest)) :
    ∃ out, writeSeq e st (l.zip vs) = .ok out ∧
      ∀ rest, readSeq e st l (out ++ rest) = some (vs, rest) := by
  induction hf with
  | nil => exact ⟨[], by simp [writeSeq], fun rest => by simp [readSeq]⟩
  | cons hdv htl ihtl =>
    rename_i d v l' vs'
    obtain ⟨o1, hw1, hr1⟩ := ih d (by simp) v hdv
    obtain ⟨o2, hw2, hr2⟩ := ihtl fun d' hd' v' hv' => ih d' (by simp [hd']) v' hv'
    refine ⟨o1 ++ o2, ?_, fun rest => ?_⟩
    · simp [writeSeq, List.zip_cons_cons, hw1, hw2]
    · rw [List.append_assoc]
      simp [readSeq, hr1, hr2]

theorem scalar_write_read (e : Endian) {st : Nat} {t : ScalarTag} {v : Value}
    (h : Conforms st (.scalar t) v) :
    ∃ out, write e st (.scalar t) v = .ok out ∧
      ∀ rest, read e st (.scalar t) (out ++ rest) = some (v, rest) := by
  obtain ⟨out, hw, hr⟩ := scalar_roundtrip e h
  refine ⟨out, ?_, fun rest => ?_⟩
  · simp [write, hw]
  · simp [read, hr rest]

/-- Round-trip of the composite transcoder: a value conforming to a
descriptor is encoded by `write` and decoded back bit-for-bit by `read` with
the same endianness, size tag and descriptor, consuming exactly the written
bytes (so the stream position after the read equals the position after the
write). -/
theorem write_read_roundtrip (e : Endian) {st : Nat} :
    ∀ (d : Desc) (v : Value), Conforms st d v →
      ∃ out, write e st d v = .ok out ∧
        ∀ rest, read e st d (out ++ rest) = some (v, rest) := by
  suffices H : ∀ (N : Nat) (d : Desc), sizeOf d ≤ N → ∀ v, Conforms st d v →
      ∃ out, write e st d v = .ok out ∧
        ∀ rest, read e st d (out ++ rest) = some (v, rest) by
    exact fun d v h => H (sizeOf d) d le_rfl v h
  intro N
  induction N with
  | zero =>
    intro d hd
    exfalso
    cases d <;> simp at hd
  | succ N ih =>
    intro d hd v hv
    cases hv with
    | uintC h0 h1 => exact scalar_write_read e (Conforms.uintC h0 h1)
    | sintC h0 h1 => exact scalar_write_read e (Conforms.sintC h0 h1)
    | boolC b => exact scalar_write_read e (Conforms.boolC b)
    | charC hb => exact scalar_write_read e (Conforms.charC hb)
    | strC hb h0 => exact scalar_write_read e (Conforms.strC hb h0)
    | tupC h =>
      rename_i ds vs
      have hih : ∀ d' ∈ ds, ∀ v', Conforms st d' v' →
          ∃ out, write e st d' v' = .ok out ∧
            ∀ rest, read e st d' (out ++ rest) = some (v', rest) := by
        intro d' hd' v' hv'
        refine ih d' ?_ v' hv'
        have h1 : sizeOf d' < sizeOf ds := List.sizeOf_lt_of_mem hd'
        have h2 : sizeOf (Desc.tup ds) = 1 + sizeOf ds := by simp
        omega
      obtain ⟨out, hw, hr⟩ := seq_roundtrip e h hih
      have hcp : cyclePairs ds vs = ds.zip vs := cyclePairs_eq_zip_self h.length_eq.symm
      refine ⟨out, ?_, fun rest => ?_⟩
      · simp only [write, hcp]
        exact hw
      · simp [read, hr rest]
    | lstC C hne hC h =>
      rename_i ds vs
      have hdpos : 0 < ds.length := List.length_pos.mpr hne
      have hlen : vs.length = C * ds.length := by
        have h1 := h.length_eq
        rw [length_flatten_replicate] at h1
        omega
      have hih : ∀ d' ∈ (List.replicate C ds).flatten, ∀ v', Conforms st d' v' →
          ∃ out, write e st d' v' = .ok out ∧
            ∀ rest, read e st d' (out ++ rest) = some (v', rest) := by
        intro d' hd' v' hv'
        refine ih d' ?_ v' hv'
        have hmem : d' ∈ ds := by
          rcases List.mem_flatten.mp hd' with ⟨l, hl, hdl⟩
          rw [List.eq_of_mem_replicate hl] at hdl
          exact hdl
        have h1 : sizeOf d' < sizeOf ds := List.sizeOf_lt_of_mem hmem
        have h2 : sizeOf (Desc.lst ds) = 1 + sizeOf ds := by simp
        omega
      obtain ⟨body, hwb, hrb⟩ := seq_roundtrip e h hih
      have hcp : cyclePairs ds vs = ((List.replicate C ds).flatten).zip vs :=
        cyclePairs_eq_zip_flatten hlen
      have hcount : Conforms st (.scalar (.uint st)) (.vint (C : Int)) :=
        Conforms.uintC (Int.natCast_nonneg C) (by exact_mod_cast hC)
      obtain ⟨cb, hwc, hrc⟩ := scalar_roundtrip e hcount
      have hdiv : vs.length / ds.length = C := by
        rw [hlen]
        exact Nat.mul_div_cancel _ hdpos
      refine ⟨cb ++ body, ?_, fun rest => ?_⟩
      · simp only [write, hcp, hdiv]
        rw [if_neg (by omega), hwc, hwb]
      · rw [List.append_assoc]
        simp only [read, hrc (body ++ rest), Int.toNat_natCast,
          readCycles_eq_readSeq_flatten, hrb rest]
    | arrC hi hlen hC hb hshape =>
      rename_i itemsize shape count bs
      have hcount : Conforms st (.scalar (.uint st)) (.vint (count : Int)) :=
        Conforms.uintC (Int.natCast_nonneg count) (by exact_mod_cast hC)
      obtain ⟨cb, hwc, hrc⟩ := scalar_roundtrip e hcount
      refine ⟨cb ++ bs, ?_, fun rest => ?_⟩
      · simp only [write, hwc]
        rcases hshape with hsh | hsh
        · subst hsh
          simp [writeBasicArray]
        · match shape, hsh with
          | c :: tl, hsh =>
            have hc : c = count := by simpa using hsh
            subst hc
            simp [writeBasicArray]
      · rw [List.append_assoc]
        have htake : (bs ++ rest).take (count * itemsize) = bs := List.take_left' hlen
        have hdrop : (bs ++ rest).drop (count * itemsize) = rest := List.drop_left' hlen
        simp only [read, hrc (bs ++ rest), Int.toNat_natCast, htake, hdrop]
        rw [if_pos ⟨by omega, by rw [hlen]; exact Nat.mul_mod_left count itemsize⟩]
        rw [hlen, Nat.mul_div_cancel _ hi]

/-- Escaped-mode decoding of a NUL-terminated prefix free of the NUL and
escape bytes: the prefix is returned verbatim, the terminator consumed. -/
theorem escRead_verbatim (e : Endian) (sb : Nat) (rest : List Nat) :
    ∀ (pre : List Nat), 0 ∉ pre → 35 ∉ pre →
      read_byte_string e sb (pre ++ 0 :: rest) = some (pre, rest) := by
  intro pre
  induction pre with
  | nil =>
    intro _ _
    simp [read_byte_string]
  | cons b tl ih =>
    intro h0 h35
    have hb0 : b ≠ 0 := fun hb => h0 (by simp [hb])
    have hb35 : b ≠ 35 := fun hb => h35 (by simp [hb])
    have htl0 : 0 ∉ tl := fun hm => h0 (by simp [hm])
    have htl35 : 35 ∉ tl := fun hm => h35 (by simp [hm])
    simp [read_byte_string, hb0, hb35, ih htl0 htl35]

/-- Escaped-mode decoding at an escape byte after a clean prefix: exactly
`sb` bytes are consumed as the embedded integer, its decimal text is
appended, then the result of one recursive decode of the remaining stream,
and decoding stops. -/
theorem escRead_escape (e : Endian) (sb : Nat) (ib rest2 : List Nat)
    (hib : ib.length = sb) :
    ∀ (pre : List Nat), 0 ∉ pre → 35 ∉ pre →
      read_byte_string e sb (pre ++ 35 :: (ib ++ rest2)) =
        (read_byte_string e sb rest2).map
          (fun p => (pre ++ (decimalDigits (natFromBytesE e ib) ++ p.1), p.2)) := by
  intro pre
  induction pre with
  | nil =>
    intro _ _
    rw [List.nil_append, read_byte_string]
    rw [if_neg (by omega), if_pos rfl, List.take_left' hib, List.drop_left' hib]
    cases hr : read_byte_string e sb rest2 with
    | none => rfl
    | some p =>
      obtain ⟨tail, r2⟩ := p
      simp
  | cons b tl ih =>
    intro h0 h35
    have hb0 : b ≠ 0 := fun hb => h0 (by simp [hb])
    have hb35 : b ≠ 35 := fun hb => h35 (by simp [hb])
    have htl0 : 0 ∉ tl := fun hm => h0 (by simp [hm])
    have htl35 : 35 ∉ tl := fun hm => h35 (by simp [hm])
    rw [List.cons_append, read_byte_string]
    rw [if_neg hb0, if_neg hb35, ih htl0 htl35]
    cases hr : read_byte_string e sb rest2 with
    | none => rfl
    | some p =>
      obtain ⟨tail, r2⟩ := p
      simp

/-- A sequence of conforming descriptor/value pairs always writes
successfully. -/
theorem writeSeq_ok_of_conf (e : Endian) {st : Nat} :
    ∀ (ps : List (Desc × Value)), (∀ p ∈ ps, Conforms st p.1 p.2) →
      ∃ out, writeSeq e st ps = .ok out := by
  intro ps
  induction ps with
  | nil => exact fun _ => ⟨[], by simp [writeSeq]⟩
  | cons p ps ih =>
    intro hconf
    obtain ⟨d, v⟩ := p
    obtain ⟨o1, hw1, _⟩ := write_read_roundtrip e d v (hconf (d, v) (by simp))
    obtain ⟨o2, hw2⟩ := ih fun q hq => hconf q (by simp [hq])
    exact ⟨o1 ++ o2, by simp [writeSeq, hw1, hw2]⟩

/-- On a NUL-free stream the delimited-scan loop never meets its stop
condition: at end of stream each `stream.read(1)` yields the empty byte
string, which is not the delimiter, so no iteration count suffices. -/
theorem untilNulFuel_no_delimiter :
    ∀ (fuel : Nat) (s : List Nat), 0 ∉ s → ∀ (acc : List Nat),
      untilNulFuel fuel acc s = none := by
  intro fuel
  induction fuel with
  | zero => intro s _ acc; rfl
  | succ f ih =>
    intro s hs acc
    match s with
    | [] =>
      simp only [untilNulFuel, read1]
      rw [if_neg (by simp)]
      exact ih [] (by simp) _
    | b :: r =>
      have hb : b ≠ 0 := fun h => hs (by simp [h])
      have hr : 0 ∉ r := fun h => hs (by simp [h])
      simp only [untilNulFuel, read1]
      rw [if_neg (by simp [hb])]
      exact ih r hr _

/-- The escaped-mode loop on an exhausted stream keeps reading empty byte
strings and never produces a value. -/
theorem readByteStringFuel_nil (e : Endian) (sb : Nat) :
    ∀ fuel, readByteStringFuel e sb fuel [] = none := by
  intro fuel
  induction fuel with
  | zero => rfl
  | succ f ih => simp [readByteStringFuel, ih]

/-- C1: for every supported descriptor shape (scalar, tuple, list, array,
plain string) and every value conforming to that descriptor, writing with
`write` and then reading the produced bytes with the same endianness, size
tag and descriptor yields the original value bit-for-bit, and exactly the
written bytes are consumed, so the stream position after the read equals
the position after the matching write; for the escaped string format (whose
write side is the plain NUL-terminated encoding), conforming values — free
of the escape metacharacter — round-trip through the escaped-mode reader
the same way. -/
theorem C1_roundtrip :
    (∀ (e : Endian) (st : Nat) (d : Desc) (v : Value), Conforms st d v →
      ∃ out, write e st d v = .ok out ∧
        ∀ rest, read e st d (out ++ rest) = some (v, rest))
    ∧ (∀ (e : Endian) (st sb : Nat) (bs : List Nat), 0 ∉ bs → 35 ∉ bs →
      ∃ out, write e st (.scalar .str) (.vbytes bs) = .ok out ∧
        ∀ rest, read_byte_string e sb (out ++ rest) = some (bs, rest)) := by
  constructor
  · exact fun e st d v h => write_read_roundtrip e d v h
  · intro e st sb bs h0 h35
    refine ⟨bs ++ [0], by simp [write, writeBasic], fun rest => ?_⟩
    rw [List.append_assoc, List.singleton_append]
    exact escRead_verbatim e sb rest bs h0 h35

theorem C1_roundtrip_witness :
    (∃ out, write .little 1 (.tup [.scalar (.uint 1), .scalar (.uint 2)])
        (.vtuple [.vint 7, .vint 258]) = .ok out ∧
      ∀ rest, read .little 1 (.tup [.scalar (.uint 1), .scalar (.uint 2)])
          (out ++ rest) = some (.vtuple [.vint 7, .vint 258], rest))
    ∧ (∃ out, write .big 1 (.scalar .str) (.vbytes [104, 105]) = .ok out ∧
      ∀ rest, read_byte_string .big 2 (out ++ rest) = some ([104, 105], rest)) :=
  ⟨C1_roundtrip.1 .little 1 _ _ (Conforms.tupC
      (List.Forall₂.cons (Conforms.uintC (by norm_num) (by norm_num))
        (List.Forall₂.cons (Conforms.uintC (by norm_num) (by norm_num))
          List.Forall₂.nil))),
   C1_roundtrip.2 .big 1 2 [104, 105] (by decide) (by decide)⟩

/-- C2 (code bug): on a stream exhausted before the NUL delimiter appears,
the scan loop of `until` / `_read_bytes_until` never meets its stop
condition — at end of stream each `stream.read(1)` returns the empty byte
string, which is not the delimiter — so the read neither returns a value nor
raises an end-of-stream error within any number of iterations, where the
claim requires a TruncatedStream error. -/
theorem C2_until_no_delimiter_diverges (s : List Nat) (h : 0 ∉ s) :
    ∀ (fuel : Nat) (acc : List Nat), untilNulFuel fuel acc s = none :=
  fun fuel acc => untilNulFuel_no_delimiter fuel s h acc

theorem C2_until_witness : untilNulFuel 1000 [] [104, 105] = none :=
  C2_until_no_delimiter_diverges [104, 105] (by decide) 1000 []

/-- C3 counterexample: writing the 3-element tuple value (1, 2, 3) against
the 2-sub-descriptor tuple descriptor (uint8, uint8) does not raise a
TypeMismatch error — it silently encodes all three values against the cycled
sub-descriptors, producing 3 bytes. -/
theorem C3_counterexample :
    write .big 1 (.tup [.scalar (.uint 1), .scalar (.uint 1)])
      (.vtuple [.vint 1, .vint 2, .vint 3]) = .ok [1, 2, 3] := by
  simp [write, writeSeq, cyclePairs, writeBasic, natToBytesE, natToBytesLE]

/-- C3 amended: `write` performs no arity validation for tuple descriptors:
each value element is paired with the sub-descriptor at its index modulo the
tuple's arity (`zip` against the cycled descriptor sequence), and whenever
every such pair conforms the write succeeds without error, whether or not
the value's length equals the descriptor's sub-item count. -/
theorem C3_tuple_write_no_arity_check (e : Endian) (st : Nat)
    (ds : List Desc) (vs : List Value)
    (hconf : ∀ p ∈ cyclePairs ds vs, Conforms st p.1 p.2) :
    ∃ out, write e st (.tup ds) (.vtuple vs) = .ok out := by
  obtain ⟨out, hw⟩ := writeSeq_ok_of_conf e (cyclePairs ds vs) hconf
  exact ⟨out, by simp only [write]; exact hw⟩

theorem C3_tuple_witness :
    ∃ out, write .big 1 (.tup [.scalar (.uint 1), .scalar (.uint 1)])
      (.vtuple [.vint 1, .vint 2, .vint 3]) = .ok out :=
  C3_tuple_write_no_arity_check .big 1 _ _ (by
    have hcp : cyclePairs [.scalar (.uint 1), .scalar (.uint 1)]
        [.vint 1, .vint 2, .vint 3] =
        [(.scalar (.uint 1), .vint 1), (.scalar (.uint 1), .vint 2),
          (.scalar (.uint 1), .vint 3)] := rfl
    intro p hp
    rw [hcp] at hp
    fin_cases hp <;> exact Conforms.uintC (by norm_num) (by norm_num))

/-- C4: escaped-mode `read_byte_string` scans byte by byte, appending
ordinary bytes verbatim and stopping at NUL; at the escape byte `#` (0x23)
it reads exactly `size_bytes` further bytes as an unsigned integer in the
configured endianness, appends that integer's decimal text, then appends the
result of one recursive escaped-mode decode of the remaining stream and
returns; in particular `#` + 0x0005 (big endian, size_bytes = 2) + `world` +
NUL decodes to `5world`. -/
theorem C4_escaped_decode :
    (∀ (e : Endian) (sb : Nat) (rest pre : List Nat), 0 ∉ pre → 35 ∉ pre →
      read_byte_string e sb (pre ++ 0 :: rest) = some (pre, rest))
    ∧ (∀ (e : Endian) (sb : Nat) (ib rest2 : List Nat), ib.length = sb →
      ∀ (pre : List Nat), 0 ∉ pre → 35 ∉ pre →
      read_byte_string e sb (pre ++ 35 :: (ib ++ rest2)) =
        (read_byte_string e sb rest2).map
          (fun p => (pre ++ (decimalDigits (natFromBytesE e ib) ++ p.1), p.2)))
    ∧ read_byte_string .big 2 [35, 0, 5, 119, 111, 114, 108, 100, 0] =
        some ([53, 119, 111, 114, 108, 100], []) := by
  refine ⟨fun e sb rest pre h0 h35 => escRead_verbatim e sb rest pre h0 h35,
    fun e sb ib rest2 hib => escRead_escape e sb ib rest2 hib, ?_⟩
  simp [read_byte_string, decimalDigits, natFromBytesE, natFromBytesLE]
  decide

theorem C4_escaped_witness :
    read_byte_string .big 2 ([104] ++ 35 :: ([0, 7] ++ [0])) =
      (read_byte_string .big 2 [0]).map
        (fun p => ([104] ++ (decimalDigits (natFromBytesE .big [0, 7]) ++ p.1), p.2)) :=
  C4_escaped_decode.2.1 .big 2 [0, 7] [0] rfl [104] (by decide) (by decide)

/-- C5 (code bug): on a list descriptor with a 2-sub-descriptor repeat unit
and a 3-element value — a length that is not an exact multiple — `write`
raises nothing: it writes the floor-divided count 3 // 2 = 1 via the size tag
and then encodes all three elements, silently producing a stream whose count
prefix does not match its contents, where the claim requires an
ArraySizeMismatch-class (TypeMismatch) error. -/
theorem C5_list_write_truncated_count :
    write .big 1 (.lst [.scalar (.uint 1), .scalar (.uint 1)])
      (.vlist [.vint 1, .vint 2, .vint 3]) = .ok [1, 1, 2, 3] := by
  simp [write, writeSeq, cyclePairs, writeBasic, natToBytesE, natToBytesLE]

/-- C6 (code bug): when the escape byte `#` is followed by fewer than
`size_bytes` bytes, escaped-mode decoding does not fail with a truncation
error: `int.from_bytes` converts the short byte string anyway, and the
recursive decode then scans an exhausted stream forever — each
`stream.read(1)` returns the empty byte string — never producing a value or
an error within any number of loop iterations. -/
theorem C6_escape_truncated_diverges (e : Endian) (sb : Nat) (r : List Nat)
    (h : r.length < sb) :
    ∀ fuel, readByteStringFuel e sb fuel (35 :: r) = none := by
  intro fuel
  cases fuel with
  | zero => rfl
  | succ f =>
    have hdrop : r.drop sb = [] := List.drop_eq_nil_of_le h.le
    simp [readByteStringFuel, hdrop, readByteStringFuel_nil]

theorem C6_escape_witness : readByteStringFuel .big 2 1000 [35, 5] = none :=
  C6_escape_truncated_diverges .big 2 [5] (by decide) 1000

/-- C7: on a list descriptor with sub-descriptors `ds`, `read` first decodes
an element count `C` via the size tag and then performs `C` full cycles
through `ds` — one pass over `ds` replicated `C` times — returning the
single flattened sequence of decoded values in cycle order, whose length is
`C * ds.length` whenever the cycles succeed. -/
theorem C7_list_read_cycles (e : Endian) (st : Nat) (ds : List Desc)
    (s s1 : List Nat) (C : Nat)
    (h1 : readBasic e (.uint st) s = some (.vint (C : Int), s1)) :
    read e st (.lst ds) s =
      (readSeq e st (List.replicate C ds).flatten s1).map
        (fun p => (Value.vlist p.1, p.2))
    ∧ ∀ vs s2, readSeq e st (List.replicate C ds).flatten s1 = some (vs, s2) →
        vs.length = C * ds.length := by
  constructor
  · simp only [read, h1, Int.toNat_natCast, readCycles_eq_readSeq_flatten]
    cases hx : readSeq e st (List.replicate C ds).flatten s1 with
    | none => rfl
    | some p =>
      obtain ⟨vs, s2⟩ := p
      simp
  · intro vs s2 hx
    have hl := readSeq_length hx
    rwa [length_flatten_replicate] at hl

theorem C7_list_witness :
    (read .little 1 (.lst [.scalar (.uint 1)]) [2, 7, 9, 5] =
      (readSeq .little 1 (List.replicate 2 [Desc.scalar (.uint 1)]).flatten [7, 9, 5]).map
        (fun p => (Value.vlist p.1, p.2)))
    ∧ ∀ vs s2,
        readSeq .little 1 (List.replicate 2 [Desc.scalar (.uint 1)]).flatten [7, 9, 5] =
          some (vs, s2) →
        vs.length = 2 * [Desc.scalar (.uint 1)].length :=
  C7_list_read_cycles .little 1 [.scalar (.uint 1)] [2, 7, 9, 5] [7, 9, 5] 2 rfl

/-- C8: reading any fixed-width scalar tag from a stream holding fewer bytes
than the tag's exact byte width fails — `struct.unpack` raises the
TruncatedStream-class error — instead of returning a value. -/
theorem C8_scalar_truncated (e : Endian) (t : ScalarTag) (s : List Nat)
    (hne : t ≠ .str) (h : s.length < calcsize t) :
    readBasic e t s = none := by
  cases t with
  | uint w =>
    simp only [calcsize] at h
    simp only [readBasic]
    rw [if_neg (by omega)]
  | sint w =>
    simp only [calcsize] at h
    simp only [readBasic]
    rw [if_neg (by omega)]
  | bool =>
    simp only [calcsize] at h
    match s with
    | [] => rfl
    | b :: r => simp at h
  | char =>
    simp only [calcsize] at h
    match s with
    | [] => rfl
    | b :: r => simp at h
  | str => exact absurd rfl hne

theorem C8_scalar_witness : readBasic .big (.uint 4) [1, 2, 3] = none :=
  C8_scalar_truncated .big (.uint 4) [1, 2, 3] (by decide) (by decide)

/-- C9: on array write with a declared expected element count (non-empty
descriptor shape), a value whose element count differs raises the
array-size-mismatch assertion after the count prefix but before any element
bytes are written: the error leaves exactly the size-tag encoding of the
count in the stream and none of the value's bytes. -/
theorem C9_array_size_mismatch (e : Endian) (st itemsize : Nat) (c count : Nat)
    (shape : List Nat) (bs : List Nat) (hshape : shape.head? = some c)
    (hne : c ≠ count) (hfit : count < 256 ^ st) :
    write e st (.arr itemsize shape) (.varray count bs) =
      .error (natToBytesE e st count) := by
  match shape, hshape with
  | c' :: tl, hshape =>
    have hc : c' = c := by simpa using hshape
    subst hc
    have hw : writeBasic e (.uint st) (.vint (count : Int)) =
        some (natToBytesE e st count) := by
      simp only [writeBasic]
      rw [if_pos ⟨Int.natCast_nonneg count, by exact_mod_cast hfit⟩, Int.toNat_natCast]
    simp only [write, hw, writeBasicArray]
    rw [if_neg hne]

theorem C9_array_witness :
    write .little 1 (.arr 1 [2]) (.varray 3 [9, 9, 9]) =
      .error (natToBytesE .little 1 3) :=
  C9_array_size_mismatch .little 1 1 2 3 [2] [9, 9, 9] rfl (by decide) (by decide)

/-- C10: on array write with no declared element count (empty descriptor
shape), `write` performs no size validation: for every element count that
fits the size tag and every buffer it writes the size-tag-encoded count
followed by the value's raw contiguous bytes, so the size-mismatch error
branch is unreachable. -/
theorem C10_array_no_declared_count (e : Endian) (st itemsize count : Nat)
    (bs : List Nat) (hfit : count < 256 ^ st) :
    write e st (.arr itemsize []) (.varray count bs) =
      .ok (natToBytesE e st count ++ bs) := by
  have hw : writeBasic e (.uint st) (.vint (count : Int)) =
      some (natToBytesE e st count) := by
    simp only [writeBasic]
    rw [if_pos ⟨Int.natCast_nonneg count, by exact_mod_cast hfit⟩, Int.toNat_natCast]
  simp only [write, hw, writeBasicArray]

theorem C10_array_witness :
    write .little 1 (.arr 1 []) (.varray 3 [9, 9, 9]) =
      .ok (natToBytesE .little 1 3 ++ [9, 9, 9]) :=
  C10_array_no_declared_count .little 1 1 3 [9, 9, 9] (by decide)

end SimpleRpc
